import Mathlib

/-!
Verification development for the Uprising level-file decoders
(`LevelParser.ts`: `parseCAM`, `parseLFL`, `parseSLK`, `parseDPH`).

Modelling conventions (shallow embedding of the TypeScript source):
* JavaScript strings are modelled as `List Char`; byte buffers
  (`Uint8Array`) as `List (Fin 256)`.
* `TextDecoder.decode` is modelled byte-for-char (`Char.ofNat`); the
  level files the decoders consume are ASCII in their text regions, where
  this agrees with UTF-8 decoding.
* JavaScript numbers produced by `parseFloat` are modelled exactly as
  `JsNum` (`nan`, finite rational, or infinity); `parseInt` results as
  `Option Int` (`none` = `NaN`).  Whitespace (`trim`, `\s`) is modelled
  at the ASCII level.
* `Uint16Array(65536)` grids are modelled as `List Nat` of length 65536
  built with `List.ofFn`.
-/

/-- Characters treated as whitespace (ASCII fragment of JS `\s` / `trim`). -/
def isWs (c : Char) : Bool :=
  c == ' ' || c == '\t' || c == '\n' || c == '\r' || c == '\x0b' || c == '\x0c'

/-- JS `String.prototype.trim` on a list of characters. -/
def jsTrim (s : List Char) : List Char :=
  ((s.dropWhile isWs).reverse.dropWhile isWs).reverse

/-- JS `String.prototype.split(sep)` for a one-character separator.
(The result is never empty, so `modifyHead` always prepends to the
first field.) -/
def splitCh (sep : Char) : List Char → List (List Char)
  | [] => [[]]
  | c :: cs =>
    if c = sep then [] :: splitCh sep cs
    else (splitCh sep cs).modifyHead (c :: ·)

/-- Helper for `wordsOf`: accumulates the current (reversed) word. -/
def wordsAux : List Char → List Char → List (List Char)
  | [], cur => if cur.isEmpty then [] else [cur.reverse]
  | c :: cs, cur =>
    if isWs c then
      if cur.isEmpty then wordsAux cs [] else cur.reverse :: wordsAux cs []
    else wordsAux cs (c :: cur)

/-- Maximal runs of non-whitespace characters. -/
def wordsOf (s : List Char) : List (List Char) := wordsAux s []

/-- JS `s.trim().split(/\s+/)`: on the empty string this yields `[""]`,
otherwise the whitespace-separated words. -/
def tokens (s : List Char) : List (List Char) :=
  let t := jsTrim s
  if t.isEmpty then [[]] else wordsOf t

/-- JS `String.prototype.startsWith`. -/
def jsStartsWith (l pat : List Char) : Bool := pat.isPrefixOf l

/-- JS `String.prototype.indexOf(needle)` (substring search, `none` = `-1`). -/
def idxSub (needle : List Char) : List Char → Option Nat
  | [] => if needle.isPrefixOf ([] : List Char) then some 0 else none
  | c :: t =>
    if needle.isPrefixOf (c :: t) then some 0
    else (idxSub needle t).map (· + 1)

/-- JS `String.prototype.indexOf(ch, from)` for a single character. -/
def idxFrom (s : List Char) (c : Char) (k : Nat) : Option Nat :=
  (List.findIdx? (fun x => x = c) (s.drop k)).map (· + k)

/-- Numeric value of a list of decimal digit characters. -/
def digitsVal (l : List Char) : Nat :=
  l.foldl (fun a c => a * 10 + (c.toNat - 48)) 0

/-- JS regex test `/^\d+$/` on a string. -/
def isDigits (l : List Char) : Bool := !l.isEmpty && l.all Char.isDigit

def isHexDigitCh (c : Char) : Bool :=
  c.isDigit || ('a' ≤ c && c ≤ 'f') || ('A' ≤ c && c ≤ 'F')

def hexDigitVal (c : Char) : Nat :=
  if c.isDigit then c.toNat - 48
  else if 'a' ≤ c && c ≤ 'f' then c.toNat - 87
  else c.toNat - 55

def hexVal (l : List Char) : Nat :=
  l.foldl (fun a c => a * 16 + hexDigitVal c) 0

/-- A JS number as produced by `parseFloat`: `NaN`, a finite value
(modelled exactly as a rational), or a signed infinity. -/
inductive JsNum where
  | nan : JsNum
  | val (q : ℚ) : JsNum
  | inf (neg : Bool) : JsNum
deriving DecidableEq, Repr

/-- The rational `±(ip.fp)·10^ex` denoted by a decimal literal with sign
`neg`, integer digits `ip`, fraction digits `fp` and exponent `ex`,
computed as `n·10^(ex-|fp|)` for the integer `n = ip·10^|fp| + fp`. -/
def decValue (neg : Bool) (ip fp : List Char) (ex : Int) : ℚ :=
  let n0 : Int := ((digitsVal ip) * 10 ^ fp.length + digitsVal fp : Nat)
  let n : Int := if neg then -n0 else n0
  let e : Int := ex - (fp.length : Int)
  if 0 ≤ e then ((n * 10 ^ e.toNat : Int) : ℚ)
  else (n : ℚ) / ((10 ^ (-e).toNat : Nat) : ℚ)

/-- JS `parseFloat` (decimal literals, exponents, signed `Infinity`;
no-digits input gives `NaN`).  Finite values are modelled as exact
rationals rather than IEEE doubles; no claim compares values where the
rounding differs. -/
def jsParseFloat (s0 : List Char) : JsNum :=
  let s := s0.dropWhile isWs
  let sgnr : Bool × List Char :=
    match s with
    | '+' :: t => (false, t)
    | '-' :: t => (true, t)
    | t => (false, t)
  let neg := sgnr.1
  let r := sgnr.2
  if ("Infinity".toList).isPrefixOf r then JsNum.inf neg
  else
    let ip := r.takeWhile Char.isDigit
    let r1 := r.dropWhile Char.isDigit
    let fpr : List Char × List Char :=
      match r1 with
      | '.' :: t => (t.takeWhile Char.isDigit, t.dropWhile Char.isDigit)
      | _ => ([], r1)
    let fp := fpr.1
    let r2 := fpr.2
    if ip.isEmpty && fp.isEmpty then JsNum.nan
    else
      let ex : Int :=
        match r2 with
        | e :: t =>
          if e = 'e' ∨ e = 'E' then
            match t with
            | '+' :: u =>
              (match u.takeWhile Char.isDigit with
               | [] => 0
               | ds => (digitsVal ds : Int))
            | '-' :: u =>
              (match u.takeWhile Char.isDigit with
               | [] => 0
               | ds => -(digitsVal ds : Int))
            | u =>
              (match u.takeWhile Char.isDigit with
               | [] => 0
               | ds => (digitsVal ds : Int))
          else 0
        | [] => 0
      JsNum.val (decValue neg ip fp ex)

/-- JS `parseInt` with no radix argument (`none` = `NaN`): optional sign,
`0x` hex prefix, else leading decimal digits. -/
def jsParseInt (s0 : List Char) : Option Int :=
  let s := s0.dropWhile isWs
  let sgr : Int × List Char :=
    match s with
    | '+' :: t => (1, t)
    | '-' :: t => (-1, t)
    | t => (1, t)
  let sg := sgr.1
  match sgr.2 with
  | '0' :: x :: t =>
    if x = 'x' ∨ x = 'X' then
      let hs := t.takeWhile isHexDigitCh
      if hs.isEmpty then none else some (sg * (hexVal hs : Int))
    else
      some (sg * (digitsVal (('0' :: x :: t).takeWhile Char.isDigit) : Int))
  | r =>
    let ds := r.takeWhile Char.isDigit
    if ds.isEmpty then none else some (sg * (digitsVal ds : Int))

/-- JS `v || 0` on a number: `NaN` (and `0` itself) collapse to `0`. -/
def jsOr0 (v : JsNum) : JsNum :=
  match v with
  | .nan => .val 0
  | x => x

/-- JS template interpolation `${n}` of a number that is an integer or `NaN`. -/
def jsIntToString (v : Option Int) : List Char :=
  match v with
  | none => "NaN".toList
  | some i => if i < 0 then '-' :: Nat.toDigits 10 i.natAbs else Nat.toDigits 10 i.natAbs

/-- Join lines, terminating every line with `'\n'` (the shape of the
accumulated narrative fields). -/
def jl : List (List Char) → List Char
  | [] => []
  | l :: ls => l ++ '\n' :: jl ls

/-- Join a list of strings with a separator character (JS `Array.join`). -/
def joinWith (sep : Char) : List (List Char) → List Char
  | [] => []
  | [l] => l
  | l :: ls => l ++ sep :: joinWith sep ls

abbrev Byte := Fin 256

def byteChar (b : Byte) : Char := Char.ofNat b.val

/-- `TextDecoder.decode`, modelled byte-per-character (ASCII-faithful). -/
def bytesToChars (bs : List Byte) : List Char := bs.map byteChar

/-- Read one byte of a buffer as a `Nat` (out-of-range reads are guarded
by the callers, matching the source's bounds checks). -/
def byteAt (buf : List Byte) (i : Nat) : Nat := (buf.getD i 0).val

def charByte (c : Char) : Byte := ⟨c.toNat % 256, Nat.mod_lt _ (by decide)⟩

/-- ASCII text as a byte buffer (used to build concrete test inputs). -/
def strBytes (s : String) : List Byte := s.toList.map charByte

/-- Shorthand: a Lean string literal as a JS string value. -/
def str (s : String) : List Char := s.toList

/-! ## `parseCAM` (NarrativeTextDecoder) -/

inductive CamSec where
  | noSec | rankSec | objSec | spySec | descSec
deriving DecidableEq, Repr

structure CamData where
  ranking : Option (List Char) := none
  objective : List Char := []
  spyInfo : List Char := []
  description : List Char := []
deriving DecidableEq, Repr

def mObjB : List Char := "OBJECTIVE_BEGIN".toList
def mObjE : List Char := "OBJECTIVE_END".toList
def mSpyB : List Char := "SPYINFO_BEGIN".toList
def mSpyE : List Char := "SPYINFO_END".toList
def mDescB : List Char := "DESCRIPTION_BEGIN".toList
def mDescE : List Char := "DESCRIPTION_END".toList
def mRank : List Char := "CAMPAIGN_RANKING".toList

def markerList : List (List Char) := [mObjB, mObjE, mSpyB, mSpyE, mDescB, mDescE, mRank]

structure CamState where
  sec : CamSec := .noSec
  cd : CamData := {}
deriving DecidableEq, Repr

def replChar : Char := Char.ofNat 0xFFFD
def apos : Char := Char.ofNat 39

/-- One iteration of `parseCAM`'s per-line loop. -/
def camStep (st : CamState) (line : List Char) : CamState :=
  let t := jsTrim line
  if t = mObjB then { st with sec := .objSec }
  else if t = mObjE then { st with sec := .noSec }
  else if t = mSpyB then { st with sec := .spySec }
  else if t = mSpyE then { st with sec := .noSec }
  else if t = mDescB then { st with sec := .descSec }
  else if t = mDescE then { st with sec := .noSec }
  else if t = mRank then { st with sec := .rankSec }
  else
    match st.sec with
    | .rankSec =>
      if t ≠ [] then { sec := .noSec, cd := { st.cd with ranking := some t } } else st
    | .objSec =>
      if st.cd.objective = [] ∧ isDigits t then st
      else { st with cd := { st.cd with objective := st.cd.objective ++ line ++ ['\n'] } }
    | .spySec =>
      if st.cd.spyInfo = [] ∧ isDigits t then st
      else if jsStartsWith t ("PI4".toList) then st
      else { st with cd := { st.cd with spyInfo := st.cd.spyInfo ++ line ++ ['\n'] } }
    | .descSec =>
      if st.cd.description = [] ∧ isDigits t then st
      else { st with cd := { st.cd with description := st.cd.description ++ line ++ ['\n'] } }
    | .noSec => st

/-- `LevelParser.parseCAM`: replacement-character fixup, `\r` removal,
then the section state machine over the lines. -/
def parseCAM (content : List Char) : CamData :=
  let c1 := content.map (fun c => if c = replChar then apos else c)
  let c2 := c1.filter (fun c => c ≠ '\r')
  ((splitCh '\n' c2).foldl camStep {}).cd

/-! ## `parseLFL` (ConfigTextDecoder) -/

/-- `LevelParser.parseLFL`: `key: value` lines into a mapping (later
bindings overwrite earlier ones, as JS object assignment does). -/
def parseLFL (content : List Char) : List Char → Option (List Char) :=
  (splitCh '\n' content).foldl
    (fun cfg l =>
      if jsStartsWith (jsTrim l) ("#".toList) ∨ ¬ (':' ∈ l) then cfg
      else
        match splitCh ':' l with
        | [] => cfg
        | k :: vs => fun q => if q = jsTrim k then some (jsTrim (joinWith ':' vs)) else cfg q)
    (fun _ => none)

/-! ## `parseSLK` footer phase (FooterObjectDecoder) -/

/-- The `type` string of a footer object: `SLOT`, `CITADEL_BASE`,
`CITADEL_UPGRADE`, or `` `OBJ_${id}` `` (where `id` may be `NaN`). -/
inductive ObjKind where
  | slot | citadelBase | citadelUpgrade
  | placed (id : Option Int)
deriving DecidableEq, Repr

/-- The `modelName` string: a looked-up name, or the fallback
`` `Unknown_${id}` ``. -/
inductive NameRef where
  | known (name : List Char)
  | unknown (id : Option Int)
deriving DecidableEq, Repr

structure LevelObject where
  kind : ObjKind
  x : JsNum
  y : JsNum
  z : JsNum
  rotation : JsNum
  modelName : Option NameRef := none
deriving DecidableEq, Repr

/-- The footer state machine's `mode` variable. -/
inductive FMode where
  | idle | slots | citBlock | citUpg | placedObjs
deriving DecidableEq, Repr

/-- The in-progress citadel (`currentCitadel`). -/
structure PendCit where
  base : Option LevelObject := none
  upgrades : List LevelObject := []
deriving DecidableEq, Repr

structure FState where
  mode : FMode := .idle
  count : Option Int := some 0
  cur : Option PendCit := none
  objs : List LevelObject := []
  cits : List LevelObject := []
deriving DecidableEq, Repr

/-- JS `count--` on a number that may be `NaN`. -/
def decr : Option Int → Option Int := Option.map (· - 1)

/-- JS `count <= 0` (false when `count` is `NaN`). -/
def cntLE (c : Option Int) : Bool :=
  match c with
  | none => false
  | some v => v ≤ 0

/-- Flush the pending citadel: if it has a base, push the base to the
citadel list and its upgrades to the object list.  (The source does not
clear `currentCitadel` here.) -/
def flushCit (st : FState) : FState :=
  match st.cur with
  | some c =>
    match c.base with
    | some b => { st with cits := st.cits ++ [b], objs := st.objs ++ c.upgrades }
    | none => st
  | none => st

/-- JS `parts[i]` (`undefined` out of range; `parseFloat`/`parseInt` of
`undefined` is `NaN`, matching the empty string here). -/
def getTok (ps : List (List Char)) (i : Nat) : List Char := ps.getD i []

/-- One iteration of the footer loop of `parseSLK` over a raw line. -/
def footStep (table : Int → Option (List Char)) (st : FState) (raw : List Char) : FState :=
  let line := jsTrim raw
  if line.isEmpty then st
  else if jsStartsWith line ("#".toList) then st
  else
    let parts := wordsOf line
    match st.mode with
    | .idle =>
      if jsStartsWith line ("slots ".toList) then
        { st with mode := .slots, count := jsParseInt (getTok parts 1) }
      else if jsStartsWith line ("citadel ".toList) then
        { st with mode := .citBlock, cur := some {} }
      else if jsStartsWith line ("objects ".toList) then
        { st with mode := .placedObjs, count := jsParseInt (getTok parts 1) }
      else st
    | .slots =>
      let st1 :=
        if parts.length ≥ 2 then
          let x := jsParseFloat (getTok parts 0)
          let z := jsParseFloat (getTok parts 1)
          let rot := jsOr0 (jsParseFloat (getTok parts 2))
          if x ≠ .nan then
            { st with
              objs := st.objs ++ [{ kind := .slot, x := x, y := .val 0, z := z, rotation := rot }],
              count := decr st.count }
          else st
        else st
      if cntLE st1.count then { st1 with mode := .idle } else st1
    | .citBlock =>
      if jsStartsWith line ("base ".toList) then
        let x := jsParseFloat (getTok parts 1)
        let z := jsParseFloat (getTok parts 2)
        let rot := jsOr0 (jsParseFloat (getTok parts 3))
        match st.cur with
        | some c =>
          { st with
            cur := some { c with
              base := some { kind := .citadelBase, x := x, y := .val 0, z := z, rotation := rot } } }
        | none => st
      else if jsStartsWith line ("upgrades ".toList) then
        { st with mode := .citUpg, count := jsParseInt (getTok parts 1) }
      else if jsStartsWith line ("citadel ".toList) then
        { flushCit st with cur := some {} }
      else if jsStartsWith line ("objects ".toList) then
        { flushCit st with mode := .placedObjs, count := jsParseInt (getTok parts 1) }
      else st
    | .citUpg =>
      let st1 :=
        if parts.length ≥ 3 then
          let x := jsParseFloat (getTok parts 0)
          let z := jsParseFloat (getTok parts 1)
          let rot := jsOr0 (jsParseFloat (getTok parts 2))
          match st.cur with
          | some c =>
            if x ≠ .nan then
              { st with
                cur := some { c with
                  upgrades := c.upgrades ++
                    [{ kind := .citadelUpgrade, x := x, y := .val 0, z := z, rotation := rot }] },
                count := decr st.count }
            else st
          | none => st
        else st
      if cntLE st1.count then { st1 with mode := .citBlock } else st1
    | .placedObjs =>
      let st1 :=
        if parts.length ≥ 6 then
          let pid := jsParseInt (getTok parts 0)
          let x := jsParseFloat (getTok parts 2)
          let z := jsParseFloat (getTok parts 3)
          let y := jsParseFloat (getTok parts 4)
          let rot := jsOr0 (jsParseFloat (getTok parts 5))
          let nm : NameRef :=
            match pid with
            | some j =>
              match table j with
              | some n => .known n
              | none => .unknown (some j)
            | none => .unknown none
          if x ≠ .nan then
            { st with
              objs := st.objs ++
                [{ kind := .placed pid, x := x, y := y, z := z, rotation := rot,
                   modelName := some nm }],
              count := decr st.count }
          else st
        else st
      if cntLE st1.count then { st1 with mode := .idle } else st1

/-- The footer phase of `parseSLK`: run the state machine over the
footer text's lines, then flush any still-pending citadel.  Returns
`(objects, citadels)`. -/
def parseFooter (table : Int → Option (List Char)) (text : List Char) :
    List LevelObject × List LevelObject :=
  let fin := flushCit ((splitCh '\n' text).foldl (footStep table) {})
  (fin.objs, fin.cits)

/-! ## `parseSLK` header locator and binary extraction -/

/-- The decoded text window: `TextDecoder.decode(buffer.slice(0, 50000))`. -/
def headerTextOf (buf : List Byte) : List Char := bytesToChars (buf.take 50000)

def headerLines (buf : List Byte) : List (List Char) := splitCh '\n' (headerTextOf buf)

/-- A header line whose trimmed form has exactly three whitespace-separated
tokens, the first two being `256` (the dimension line of the scan). -/
def isDimLine (l : List Char) : Bool :=
  match tokens l with
  | [a, b, _] => a == "256".toList && b == "256".toList
  | _ => false

/-- `parseInt(parts[2])` of a dimension line. -/
def dimCountOf (l : List Char) : Option Int :=
  match tokens l with
  | [_, _, c] => jsParseInt c
  | _ => none

/-- The scan for the first dimension line, returning its parsed texture
count when found. -/
def firstDim : List (List Char) → Option (Option Int)
  | [] => none
  | l :: ls => if isDimLine l then some (dimCountOf l) else firstDim ls

/-- The template string `` `256 256 ${textureCount}` ``. -/
def dimStringOf (cnt : Option Int) : List Char := "256 256 ".toList ++ jsIntToString cnt

/-- The texture-list skipping loop: advance `pos` past `n` newline
terminators, stopping early (at the current `pos`) when none is found. -/
def skipLines (text : List Char) : Nat → Nat → Nat
  | 0, pos => pos
  | n + 1, pos =>
    match idxFrom text '\n' pos with
    | none => pos
    | some p => skipLines text n (p + 1)

/-- The binary-block offset computation of `parseSLK` (the
TerrainBinaryLocator): scan for the dimension line, find the dimension
string in the header text, step past its line terminator (`indexOf`
returning `-1` makes `pos` equal `0`, as in the source's `-1 + 1`),
then skip the texture-list lines. -/
def locateBinaryOffset (buf : List Byte) : Option Nat :=
  match firstDim (headerLines buf) with
  | none => none
  | some cnt =>
    match idxSub (dimStringOf cnt) (headerTextOf buf) with
    | none => none
    | some d =>
      let pos0 : Nat :=
        match idxFrom (headerTextOf buf) '\n' d with
        | none => 0
        | some p => p + 1
      let iters : Nat :=
        match cnt with
        | none => 0
        | some v => v.toNat
      some (skipLines (headerTextOf buf) iters pos0)

/-- The model-name regex `/^models[\\\/](.+?)\.sdf\s+(\d+)$/i` applied to a
trimmed line: case-insensitive `models`, a slash, the shortest nonempty
name followed by `.sdf`, whitespace, digits to the end. -/
def modelMatch (t : List Char) : Option (List Char × Int) :=
  let lt := t.map Char.toLower
  if ("models".toList).isPrefixOf lt then
    match t.drop 6, lt.drop 6 with
    | s :: rest, _ :: lrest =>
      if s = '\\' ∨ s = '/' then
        (List.range rest.length).findSome? (fun k =>
          if 1 ≤ k ∧ (".sdf".toList).isPrefixOf (lrest.drop k) then
            let u := rest.drop (k + 4)
            let w := u.takeWhile isWs
            let d := u.dropWhile isWs
            if w ≠ [] ∧ d ≠ [] ∧ d.all Char.isDigit then
              some (rest.take k, (digitsVal d : Int))
            else none
          else none)
      else none
    | _, _ => none
  else none

/-- The `modelIdToName` table harvested from the header lines (later
entries overwrite earlier ones, as JS object assignment does). -/
def modelTableOf (lines : List (List Char)) : Int → Option (List Char) :=
  lines.foldl
    (fun table l =>
      match modelMatch (jsTrim l) with
      | some p => fun j => if j = p.2 then some p.1 else table j
      | none => table)
    (fun _ => none)

/-- One texture-index cell: low 16 bits of the 6-byte record at
`off + i*6`, `0` when the two bytes are not fully inside the buffer. -/
def texCellAt (buf : List Byte) (off i : Nat) : Nat :=
  if off + i * 6 + 2 ≤ buf.length then
    byteAt buf (off + i * 6) ||| (byteAt buf (off + i * 6 + 1)) <<< 8
  else 0

/-- One height cell: the single byte of binary layer 5 (offset
`off + 5·65536`, row stride 257), `0` when out of bounds. -/
def heightCellAt (buf : List Byte) (off i : Nat) : Nat :=
  let src := off + 5 * 65536 + (i / 256) * 257 + i % 256
  if src < buf.length then byteAt buf src else 0

def texGridAt (buf : List Byte) (off : Nat) : List Nat :=
  List.ofFn (fun i : Fin 65536 => texCellAt buf off i.val)

def heightGridAt (buf : List Byte) (off : Nat) : List Nat :=
  List.ofFn (fun i : Fin 65536 => heightCellAt buf off i.val)

/-- The untouched `new Uint16Array(256*256)`. -/
def zeroGrid : List Nat := List.ofFn (fun _ : Fin 65536 => 0)

/-- The footer decode at `footerStart = off + 256*256*6`, run only when
that offset lies strictly inside the buffer. -/
def footerAt (table : Int → Option (List Char)) (buf : List Byte) (off : Nat) :
    List LevelObject × List LevelObject :=
  if off + 256 * 256 * 6 < buf.length then
    parseFooter table (bytesToChars (buf.drop (off + 256 * 256 * 6)))
  else ([], [])

structure SlkResult where
  terrain : List (List Char)
  objects : List LevelObject
  citadels : List LevelObject
  textureIndices : List Nat
  heights : List Nat
deriving DecidableEq

/-- The result of `parseSLK` once the binary offset `off` is known: the
same single offset feeds the texture grid, the layer-5 height grid, and
the footer-start computation. -/
def slkAt (buf : List Byte) (off : Nat) (table : Int → Option (List Char)) : SlkResult :=
  let fr := footerAt table buf off
  { terrain := [], objects := fr.1, citadels := fr.2,
    textureIndices := texGridAt buf off, heights := heightGridAt buf off }

/-- `LevelParser.parseSLK`. -/
def parseSLK (buf : List Byte) : SlkResult :=
  match locateBinaryOffset buf with
  | none =>
    { terrain := [], objects := [], citadels := [],
      textureIndices := zeroGrid, heights := zeroGrid }
  | some off => slkAt buf off (modelTableOf (headerLines buf))

/-! ## `parseDPH` (FixedHeightmapDecoder) -/

structure DphResult where
  heights : List Nat
deriving DecidableEq

/-- `LevelParser.parseDPH`: 65536 little-endian 16-bit reads, `0` beyond
the end of the buffer. -/
def parseDPH (buf : List Byte) : DphResult :=
  { heights :=
      List.ofFn (fun i : Fin 65536 =>
        if i.val * 2 + 1 < buf.length then
          byteAt buf (i.val * 2) ||| (byteAt buf (i.val * 2 + 1)) <<< 8
        else 0) }

/-- Modelled from the spec: the binary-block offset described by the
claim — "the position of that exact three-token string advanced past its
line terminator and then past exactly N further complete lines" — as a
partial advance that fails (`none`) when a line terminator is missing,
unlike the source's loop which stops early. -/
def specAdvancePastLines (text : List Char) : Nat → Nat → Option Nat
  | 0, pos => some pos
  | n + 1, pos =>
    match idxFrom text '\n' pos with
    | none => none
    | some t => specAdvancePastLines text n (t + 1)

/-- Characters that survive `parseCAM`'s pre-processing and line split:
no newline, no carriage return, no replacement character. -/
def cleanChars (l : List Char) : Prop :=
  '\n' ∉ l ∧ '\r' ∉ l ∧ replChar ∉ l

/-- A line that `parseCAM` may append to a section: clean characters and
not (after trimming) one of the section markers. -/
def cleanLine (l : List Char) : Prop :=
  cleanChars l ∧ jsTrim l ∉ markerList

/-- Shape invariant of an accumulated multi-line narrative field: a join
of clean non-marker lines (never `PI4`-prefixed when `pi` is set, for the
spyInfo field), whose first line is not numeric-only. -/
def GoodBlock (pi : Bool) (s : List Char) : Prop :=
  ∃ ls, s = jl ls
    ∧ (∀ l ∈ ls, cleanLine l ∧ (pi = true → jsStartsWith (jsTrim l) (str "PI4") = false))
    ∧ (∀ h t, ls = h :: t → isDigits (jsTrim h) = false)

/-- Shape invariant of the ranking field: a trimmed, non-blank,
non-marker, clean single line. -/
def GoodRank : Option (List Char) → Prop
  | none => True
  | some r => cleanChars r ∧ r ∉ markerList ∧ jsTrim r = r ∧ r ≠ []

/-- The `parseCAM` state invariant. -/
def CamInv (st : CamState) : Prop :=
  GoodBlock false st.cd.objective ∧ GoodBlock true st.cd.spyInfo
    ∧ GoodBlock false st.cd.description ∧ GoodRank st.cd.ranking

/-! ## Helper lemmas -/

theorem ofFn_getD {n : Nat} (f : Fin n → Nat) (i : Nat) (h : i < n) :
    (List.ofFn f).getD i 0 = f ⟨i, h⟩ := by
  rw [List.getD_eq_getElem (List.ofFn f) 0 (by simpa [List.length_ofFn] using h)]
  simp [List.getElem_ofFn]

theorem ofFn_eq_ofFn {n : Nat} (f g : Fin n → Nat) (h : ∀ i, f i = g i) :
    List.ofFn f = List.ofFn g := congrArg List.ofFn (funext h)

theorem getD_replicate_byte (m j : Nat) :
    (List.replicate m (0 : Byte)).getD j (0 : Byte) = 0 := by
  rcases Nat.lt_or_ge j m with h | h
  · rw [List.getD_eq_getElem _ _ (by simpa using h)]
    simp
  · exact List.getD_eq_default _ _ (by simpa using h)

theorem splitCh_ne_nil (sep : Char) (s : List Char) : splitCh sep s ≠ [] := by
  induction s with
  | nil => simp [splitCh]
  | cons c cs ih =>
    by_cases hc : c = sep
    · simp [splitCh, hc]
    · simp only [splitCh, if_neg hc]
      rcases hsp : splitCh sep cs with _ | ⟨h, t⟩
      · exact absurd hsp ih
      · simp

theorem splitCh_append_line (sep : Char) (a rest : List Char) (ha : sep ∉ a) :
    splitCh sep (a ++ sep :: rest) = a :: splitCh sep rest := by
  induction a with
  | nil => simp [splitCh]
  | cons c cs ih =>
    have hc : ¬ c = sep := fun e => ha (e ▸ List.mem_cons_self c cs)
    have hcs : sep ∉ cs := fun h => ha (List.mem_cons_of_mem _ h)
    simp [splitCh, hc, ih hcs]

theorem splitCh_no_sep (sep : Char) (a : List Char) (ha : sep ∉ a) :
    splitCh sep a = [a] := by
  induction a with
  | nil => simp [splitCh]
  | cons c cs ih =>
    have hc : ¬ c = sep := fun e => ha (e ▸ List.mem_cons_self c cs)
    have hcs : sep ∉ cs := fun h => ha (List.mem_cons_of_mem _ h)
    simp [splitCh, hc, ih hcs]

theorem jl_append (a b : List (List Char)) : jl (a ++ b) = jl a ++ jl b := by
  induction a with
  | nil => simp [jl]
  | cons l ls ih => simp [jl, ih]

theorem jl_eq_nil_iff (ls : List (List Char)) : jl ls = [] ↔ ls = [] := by
  cases ls with
  | nil => simp [jl]
  | cons l t => simp [jl]

theorem splitCh_jl (ls : List (List Char)) (tail : List Char)
    (h : ∀ l ∈ ls, '\n' ∉ l) :
    splitCh '\n' (jl ls ++ tail) = ls ++ splitCh '\n' tail := by
  induction ls with
  | nil => simp [jl]
  | cons l t ih =>
    have hl : '\n' ∉ l := h l (List.mem_cons_self l t)
    have ht : ∀ x ∈ t, '\n' ∉ x := fun x hx => h x (List.mem_cons_of_mem _ hx)
    calc splitCh '\n' (jl (l :: t) ++ tail)
        = splitCh '\n' (l ++ '\n' :: (jl t ++ tail)) := by simp [jl]
      _ = l :: splitCh '\n' (jl t ++ tail) := splitCh_append_line _ _ _ hl
      _ = (l :: t) ++ splitCh '\n' tail := by rw [ih ht]; rfl

theorem splitCh_jl_closed (ls : List (List Char)) (h : ∀ l ∈ ls, '\n' ∉ l) :
    splitCh '\n' (jl ls) = ls ++ [[]] := by
  have := splitCh_jl ls [] h
  simpa [splitCh] using this

theorem mem_of_mem_splitCh {sep : Char} {l s : List Char} {c : Char}
    (hl : l ∈ splitCh sep s) (hc : c ∈ l) : c ∈ s := by
  induction s generalizing l with
  | nil =>
    simp [splitCh] at hl
    subst hl
    simp at hc
  | cons d ds ih =>
    by_cases hd : d = sep
    · rw [hd] at hl ⊢
      simp only [splitCh, if_pos rfl] at hl
      rcases List.mem_cons.mp hl with rfl | hmem
      · simp at hc
      · exact List.mem_cons_of_mem _ (ih hmem hc)
    · simp only [splitCh, if_neg hd] at hl
      rcases hsp : splitCh sep ds with _ | ⟨h0, t0⟩
      · exact absurd hsp (splitCh_ne_nil sep ds)
      · rw [hsp, List.modifyHead_cons] at hl
        rcases List.mem_cons.mp hl with rfl | hmem
        · rcases List.mem_cons.mp hc with rfl | hc0
          · exact List.mem_cons_self c ds
          · exact List.mem_cons_of_mem _
              (ih (hsp ▸ List.mem_cons_self h0 t0) hc0)
        · exact List.mem_cons_of_mem _ (ih (hsp ▸ List.mem_cons_of_mem _ hmem) hc)

theorem sep_not_mem_splitCh {sep : Char} {l s : List Char}
    (hl : l ∈ splitCh sep s) : sep ∉ l := by
  induction s generalizing l with
  | nil =>
    simp [splitCh] at hl
    subst hl
    simp
  | cons d ds ih =>
    by_cases hd : d = sep
    · rw [hd] at hl
      simp only [splitCh, if_pos rfl] at hl
      rcases List.mem_cons.mp hl with rfl | hmem
      · simp
      · exact ih hmem
    · simp only [splitCh, if_neg hd] at hl
      rcases hsp : splitCh sep ds with _ | ⟨h0, t0⟩
      · exact absurd hsp (splitCh_ne_nil sep ds)
      · rw [hsp, List.modifyHead_cons] at hl
        rcases List.mem_cons.mp hl with rfl | hmem
        · intro hmem2
          rcases List.mem_cons.mp hmem2 with rfl | hin
          · exact hd rfl
          · exact ih (hsp ▸ List.mem_cons_self h0 t0) hin
        · exact ih (hsp ▸ List.mem_cons_of_mem _ hmem)

theorem mem_jl {c : Char} {ls : List (List Char)} (h : c ∈ jl ls) :
    c = '\n' ∨ ∃ l ∈ ls, c ∈ l := by
  induction ls with
  | nil => simp [jl] at h
  | cons l t ih =>
    simp only [jl, List.mem_append, List.mem_cons] at h
    rcases h with h | h | h
    · exact Or.inr ⟨l, List.mem_cons_self l t, h⟩
    · exact Or.inl h
    · rcases ih h with h1 | ⟨l0, hl0, hc0⟩
      · exact Or.inl h1
      · exact Or.inr ⟨l0, List.mem_cons_of_mem _ hl0, hc0⟩

theorem head_dropWhile_false (p : Char → Bool) (l : List Char) :
    ∀ a, (l.dropWhile p).head? = some a → p a = false := by
  induction l with
  | nil => intro a h; simp [List.dropWhile] at h
  | cons b t ih =>
    intro a h
    by_cases hp : p b
    · rw [List.dropWhile_cons_of_pos hp] at h
      exact ih a h
    · rw [List.dropWhile_cons_of_neg hp] at h
      simp at h
      rw [← h]
      exact Bool.eq_false_iff.mpr hp

theorem dropWhile_eq_self_of_head (p : Char → Bool) (l : List Char)
    (h : ∀ a, l.head? = some a → p a = false) : l.dropWhile p = l := by
  cases l with
  | nil => rfl
  | cons b t =>
    have := h b rfl
    rw [List.dropWhile_cons_of_neg (by simp [this])]

theorem getLast?_dropWhile (p : Char → Bool) (l : List Char)
    (h : l.dropWhile p ≠ []) : (l.dropWhile p).getLast? = l.getLast? := by
  obtain ⟨t, ht⟩ := List.dropWhile_suffix (l := l) p
  conv_rhs => rw [← ht]
  exact (List.getLast?_append_of_ne_nil t h).symm

theorem jsTrim_head (s : List Char) :
    ∀ a, (jsTrim s).head? = some a → isWs a = false := by
  intro a h
  unfold jsTrim at h
  rw [List.head?_reverse] at h
  have hne : (s.dropWhile isWs).reverse.dropWhile isWs ≠ [] := by
    intro h0
    rw [h0] at h
    simp at h
  rw [getLast?_dropWhile _ _ hne, List.getLast?_reverse] at h
  exact head_dropWhile_false isWs _ a h

theorem jsTrim_last (s : List Char) :
    ∀ a, (jsTrim s).getLast? = some a → isWs a = false := by
  intro a h
  unfold jsTrim at h
  rw [List.getLast?_reverse] at h
  exact head_dropWhile_false isWs _ a h

theorem jsTrim_eq_self (r : List Char)
    (h1 : ∀ a, r.head? = some a → isWs a = false)
    (h2 : ∀ a, r.getLast? = some a → isWs a = false) : jsTrim r = r := by
  unfold jsTrim
  rw [dropWhile_eq_self_of_head isWs r h1]
  rw [dropWhile_eq_self_of_head isWs r.reverse (by
    intro a ha
    rw [List.head?_reverse] at ha
    exact h2 a ha)]
  exact List.reverse_reverse r

theorem jsTrim_idem (s : List Char) : jsTrim (jsTrim s) = jsTrim s :=
  jsTrim_eq_self (jsTrim s) (jsTrim_head s) (jsTrim_last s)

theorem mem_jsTrim {c : Char} {s : List Char} (h : c ∈ jsTrim s) : c ∈ s := by
  unfold jsTrim at h
  rw [List.mem_reverse] at h
  have h1 : c ∈ (s.dropWhile isWs).reverse :=
    ((List.dropWhile_suffix isWs).mem h)
  rw [List.mem_reverse] at h1
  exact (List.dropWhile_suffix isWs).mem h1

theorem append_snoc_ne (l m : List Char) (c : Char) : l ++ m ++ [c] ≠ l := by
  intro h
  have h2 := congrArg List.length h
  simp at h2

/-! ## Claims -/

/-- C1, counterexample: for the footer `citadel\nbase 5 5 0\nupgrades 1\n1 1 0 9\n`
the footer decode of `parseSLK` yields *no* citadel base and *no* upgrade at
all (the trimmed line `citadel` does not start with the matched text
`citadel ` including its trailing space), contradicting the claim that it
yields one base and one upgrade. -/
theorem c1_counterexample :
    parseFooter (fun _ => none) (str "citadel\nbase 5 5 0\nupgrades 1\n1 1 0 9\n") = ([], [])
    ∧ (parseFooter (fun _ => none)
        (str "citadel\nbase 5 5 0\nupgrades 1\n1 1 0 9\n")).2.length ≠ 1 := by decide

/-- C1, amended: with the citadel block opened by a line `citadel <token>`
(here `citadel 1`), the footer decode yields exactly one citadel base at
`(5,5,0)` in the citadels list and exactly one `CitadelUpgrade` at
`(1,1,0)` in the objects list, and the upgrade never appears in the
citadels list. -/
theorem c1_amended :
    parseFooter (fun _ => none) (str "citadel 1\nbase 5 5 0\nupgrades 1\n1 1 0 9\n")
      = ([{ kind := .citadelUpgrade, x := .val 1, y := .val 0, z := .val 1, rotation := .val 0 }],
         [{ kind := .citadelBase, x := .val 5, y := .val 0, z := .val 5, rotation := .val 0 }])
    ∧ ({ kind := .citadelUpgrade, x := .val 1, y := .val 0, z := .val 1,
         rotation := .val 0 } : LevelObject) ∉
        (parseFooter (fun _ => none) (str "citadel 1\nbase 5 5 0\nupgrades 1\n1 1 0 9\n")).2 := by
  decide

/-- C4, counterexample: in the SLOTS section a line `1 zz` matches the
expected shape (two tokens) and contains the unparsable numeric token
`zz` (`parseFloat` gives `NaN`), yet a record *is* emitted (with `z = NaN`)
and the remaining count *is* decremented: only the first coordinate token
is guarded by `isNaN`. -/
theorem c4_counterexample :
    jsParseFloat (str "zz") = .nan
    ∧ (footStep (fun _ => none) { mode := .slots, count := some 2 } (str "1 zz")).objs
        = [{ kind := .slot, x := .val 1, y := .val 0, z := .nan, rotation := .val 0 }]
    ∧ (footStep (fun _ => none) { mode := .slots, count := some 2 } (str "1 zz")).count = some 1
    ∧ (parseFooter (fun _ => none) (str "slots 2\n1 zz\n")).1
        = [{ kind := .slot, x := .val 1, y := .val 0, z := .nan, rotation := .val 0 }] := by
  decide

/-- C4, amended: in each counted footer section (slots, citadel upgrades,
objects), a line that matches the expected token shape and whose *x*
coordinate token (token 0 for slots/upgrades, token 2 for objects) is
unparsable yields no emitted record, leaves the pending citadel
untouched, and does not decrement the section's remaining count; an
unparsable token in any other position does not suppress the record. -/
theorem c4_amended (table : Int → Option (List Char)) (st : FState) (raw : List Char) :
    (st.mode = .slots →
      (wordsOf (jsTrim raw)).length ≥ 2 →
      jsParseFloat (getTok (wordsOf (jsTrim raw)) 0) = .nan →
      (footStep table st raw).objs = st.objs ∧ (footStep table st raw).cits = st.cits
        ∧ (footStep table st raw).cur = st.cur ∧ (footStep table st raw).count = st.count)
    ∧ (st.mode = .citUpg →
      (wordsOf (jsTrim raw)).length ≥ 3 →
      jsParseFloat (getTok (wordsOf (jsTrim raw)) 0) = .nan →
      (footStep table st raw).objs = st.objs ∧ (footStep table st raw).cits = st.cits
        ∧ (footStep table st raw).cur = st.cur ∧ (footStep table st raw).count = st.count)
    ∧ (st.mode = .placedObjs →
      (wordsOf (jsTrim raw)).length ≥ 6 →
      jsParseFloat (getTok (wordsOf (jsTrim raw)) 2) = .nan →
      (footStep table st raw).objs = st.objs ∧ (footStep table st raw).cits = st.cits
        ∧ (footStep table st raw).cur = st.cur ∧ (footStep table st raw).count = st.count) := by
  refine ⟨?_, ?_, ?_⟩
  · intro hm hlen hnan
    simp only [footStep]
    split
    · exact ⟨rfl, rfl, rfl, rfl⟩
    · split
      · exact ⟨rfl, rfl, rfl, rfl⟩
      · rw [hm]
        simp only []
        simp only [hnan, ne_eq, eq_self_iff_true, not_true_eq_false, if_false]
        split <;> exact ⟨rfl, rfl, rfl, rfl⟩
  · intro hm hlen hnan
    simp only [footStep]
    split
    · exact ⟨rfl, rfl, rfl, rfl⟩
    · split
      · exact ⟨rfl, rfl, rfl, rfl⟩
      · rw [hm]
        simp only []
        rcases hc : st.cur with _ | c
        · simp only []
          split <;> exact ⟨rfl, rfl, hc, rfl⟩
        · simp only []
          simp only [hnan, ne_eq, eq_self_iff_true, not_true_eq_false, if_false]
          split <;> exact ⟨rfl, rfl, hc, rfl⟩
  · intro hm hlen hnan
    simp only [footStep]
    split
    · exact ⟨rfl, rfl, rfl, rfl⟩
    · split
      · exact ⟨rfl, rfl, rfl, rfl⟩
      · rw [hm]
        simp only []
        simp only [hnan, ne_eq, eq_self_iff_true, not_true_eq_false, if_false]
        split <;> exact ⟨rfl, rfl, rfl, rfl⟩

/-- C4, witness: applying the amended theorem in SLOTS mode with count 3
to the line `zz 1` (unparsable x token): nothing is emitted and the
count stays 3. -/
theorem c4_witness :
    (footStep (fun _ => none) { mode := FMode.slots, count := some 3 } (str "zz 1")).objs = []
    ∧ (footStep (fun _ => none) { mode := FMode.slots, count := some 3 } (str "zz 1")).count
        = some 3 := by
  have h := (c4_amended (fun _ => none) { mode := FMode.slots, count := some 3 }
    (str "zz 1")).1 rfl (by decide) (by decide)
  exact ⟨h.1, h.2.2.2⟩

/-- C5, counterexample: for
`OBJECTIVE_BEGIN\n5\n7\nhello\nOBJECTIVE_END` the decoder drops *both*
leading numeric-only lines (`5` and `7`), although `7` is not the first
non-blank line of the section; the claim predicts objective
`7\nhello\n`, the code produces `hello\n`. -/
theorem c5_counterexample :
    (parseCAM (str "OBJECTIVE_BEGIN\n5\n7\nhello\nOBJECTIVE_END")).objective = str "hello\n"
    ∧ (parseCAM (str "OBJECTIVE_BEGIN\n5\n7\nhello\nOBJECTIVE_END")).objective
        ≠ str "7\nhello\n" := by decide

/-- C5, amended: in each multi-line narrative section, a non-marker line
is discarded if and only if it consists solely of digits (after trim)
AND the accumulated content for that section is still empty — with no
"first non-blank line" restriction, so an entire leading run of
numeric-only lines is dropped; in the spyInfo section a `PI4`-prefixed
line is additionally discarded. -/
theorem c5_amended (st : CamState) (line : List Char) (h2 : jsTrim line ∉ markerList) :
    (st.sec = .objSec →
      ((camStep st line).cd.objective = st.cd.objective ↔
        (st.cd.objective = [] ∧ isDigits (jsTrim line) = true)))
    ∧ (st.sec = .descSec →
      ((camStep st line).cd.description = st.cd.description ↔
        (st.cd.description = [] ∧ isDigits (jsTrim line) = true)))
    ∧ (st.sec = .spySec →
      ((camStep st line).cd.spyInfo = st.cd.spyInfo ↔
        ((st.cd.spyInfo = [] ∧ isDigits (jsTrim line) = true)
          ∨ jsStartsWith (jsTrim line) ("PI4".toList) = true))) := by
  have e1 : ¬(jsTrim line = mObjB) := fun e => h2 (by rw [e]; simp [markerList])
  have e2 : ¬(jsTrim line = mObjE) := fun e => h2 (by rw [e]; simp [markerList])
  have e3 : ¬(jsTrim line = mSpyB) := fun e => h2 (by rw [e]; simp [markerList])
  have e4 : ¬(jsTrim line = mSpyE) := fun e => h2 (by rw [e]; simp [markerList])
  have e5 : ¬(jsTrim line = mDescB) := fun e => h2 (by rw [e]; simp [markerList])
  have e6 : ¬(jsTrim line = mDescE) := fun e => h2 (by rw [e]; simp [markerList])
  have e7 : ¬(jsTrim line = mRank) := fun e => h2 (by rw [e]; simp [markerList])
  refine ⟨?_, ?_, ?_⟩ <;> intro hm <;>
    simp only [camStep, if_neg e1, if_neg e2, if_neg e3, if_neg e4, if_neg e5, if_neg e6,
      if_neg e7, hm]
  · by_cases hd : st.cd.objective = [] ∧ isDigits (jsTrim line) = true
    · rw [if_pos hd]
      exact iff_of_true rfl hd
    · rw [if_neg hd]
      exact iff_of_false (fun h => append_snoc_ne _ _ _ h) hd
  · by_cases hd : st.cd.description = [] ∧ isDigits (jsTrim line) = true
    · rw [if_pos hd]
      exact iff_of_true rfl hd
    · rw [if_neg hd]
      exact iff_of_false (fun h => append_snoc_ne _ _ _ h) hd
  · by_cases hd : st.cd.spyInfo = [] ∧ isDigits (jsTrim line) = true
    · rw [if_pos hd]
      exact iff_of_true rfl (Or.inl hd)
    · rw [if_neg hd]
      by_cases hp : jsStartsWith (jsTrim line) ("PI4".toList) = true
      · rw [if_pos hp]
        exact iff_of_true rfl (Or.inr hp)
      · rw [if_neg hp]
        exact iff_of_false (fun h => append_snoc_ne _ _ _ h) (fun hor => hor.elim hd hp)

/-- C5, witness: in the objective section with empty accumulated content,
applying the amended characterization shows the numeric-only line `7` is
discarded. -/
theorem c5_witness :
    (camStep { sec := CamSec.objSec } (str "7")).cd.objective
      = ({ sec := CamSec.objSec } : CamState).cd.objective := by
  exact ((c5_amended { sec := CamSec.objSec } (str "7") (by decide)).1 rfl).mpr
    ⟨rfl, by decide⟩

/-! ### Grid access helpers shared by the SLK/DPH claims -/

theorem slk_eq_of_locate_some (buf : List Byte) (off : Nat)
    (h : locateBinaryOffset buf = some off) :
    parseSLK buf = slkAt buf off (modelTableOf (headerLines buf)) := by
  unfold parseSLK
  rw [h]

theorem slk_eq_of_locate_none (buf : List Byte)
    (h : locateBinaryOffset buf = none) :
    parseSLK buf = ⟨[], [], [], zeroGrid, zeroGrid⟩ := by
  unfold parseSLK
  rw [h]

theorem texGridAt_getD (buf : List Byte) (off i : Nat) (h : i < 65536) :
    (texGridAt buf off).getD i 0 = texCellAt buf off i := by
  simp only [texGridAt]
  rw [ofFn_getD (fun j : Fin 65536 => texCellAt buf off j.val) i h]

theorem heightGridAt_getD (buf : List Byte) (off i : Nat) (h : i < 65536) :
    (heightGridAt buf off).getD i 0 = heightCellAt buf off i := by
  simp only [heightGridAt]
  rw [ofFn_getD (fun j : Fin 65536 => heightCellAt buf off j.val) i h]

theorem dph_getD (buf : List Byte) (i : Nat) (h : i < 65536) :
    (parseDPH buf).heights.getD i 0
      = (if i * 2 + 1 < buf.length then
          byteAt buf (i * 2) ||| (byteAt buf (i * 2 + 1)) <<< 8
        else 0) := by
  simp only [parseDPH]
  rw [ofFn_getD
    (fun i : Fin 65536 =>
      if i.val * 2 + 1 < buf.length then
        byteAt buf (i.val * 2) ||| (byteAt buf (i.val * 2 + 1)) <<< 8
      else 0) i h]

theorem zeroGrid_length : zeroGrid.length = 65536 := by
  simp only [zeroGrid]
  exact List.length_ofFn _

theorem texGridAt_length (buf : List Byte) (off : Nat) :
    (texGridAt buf off).length = 65536 := by
  simp only [texGridAt]
  exact List.length_ofFn _

theorem heightGridAt_length (buf : List Byte) (off : Nat) :
    (heightGridAt buf off).length = 65536 := by
  simp only [heightGridAt]
  exact List.length_ofFn _

theorem dph_length (buf : List Byte) : (parseDPH buf).heights.length = 65536 := by
  simp only [parseDPH]
  exact List.length_ofFn _

theorem texGridAt_eq_zero (buf : List Byte) (off : Nat)
    (h : ∀ i : Fin 65536, texCellAt buf off i.val = 0) :
    texGridAt buf off = zeroGrid := by
  simp only [texGridAt, zeroGrid]
  exact ofFn_eq_ofFn _ _ h

theorem heightGridAt_eq_zero (buf : List Byte) (off : Nat)
    (h : ∀ i : Fin 65536, heightCellAt buf off i.val = 0) :
    heightGridAt buf off = zeroGrid := by
  simp only [heightGridAt, zeroGrid]
  exact ofFn_eq_ofFn _ _ h

theorem mem_zeroGrid (x : Nat) (hx : x ∈ zeroGrid) : x = 0 := by
  simp only [zeroGrid] at hx
  rw [List.mem_ofFn] at hx
  obtain ⟨i, hi⟩ := hx
  exact hi.symm

attribute [irreducible] zeroGrid texGridAt heightGridAt

theorem isDimLine_shape (l : List Char) :
    isDimLine l = true ↔
      ((tokens l).length = 3 ∧ (tokens l).getD 0 [] = str "256"
        ∧ (tokens l).getD 1 [] = str "256") := by
  unfold isDimLine
  rcases tokens l with _ | ⟨a, _ | ⟨b, _ | ⟨c, _ | ⟨d, t⟩⟩⟩⟩ <;>
    simp [str, List.getD]

theorem firstDim_eq_none (ls : List (List Char))
    (h : ∀ l ∈ ls, isDimLine l = false) : firstDim ls = none := by
  induction ls with
  | nil => rfl
  | cons l t ih =>
    have h0 := h l (List.mem_cons_self l t)
    simp only [firstDim, h0, Bool.false_eq_true, if_false]
    exact ih (fun x hx => h x (List.mem_cons_of_mem _ hx))

/-- C2: for every buffer with no header line of exactly three
whitespace-separated tokens whose first two are `256`, `parseSLK`
returns with both grids entirely zero and empty objects/citadels. -/
theorem c2_thm (buf : List Byte)
    (h : ∀ l ∈ headerLines buf,
      ¬((tokens l).length = 3 ∧ (tokens l).getD 0 [] = str "256"
          ∧ (tokens l).getD 1 [] = str "256")) :
    (parseSLK buf).objects = [] ∧ (parseSLK buf).citadels = []
    ∧ (parseSLK buf).textureIndices = zeroGrid ∧ (parseSLK buf).heights = zeroGrid
    ∧ (∀ x ∈ (parseSLK buf).textureIndices, x = 0)
    ∧ (∀ x ∈ (parseSLK buf).heights, x = 0) := by
  have hdim : ∀ l ∈ headerLines buf, isDimLine l = false := by
    intro l hl
    rcases hb : isDimLine l with _ | _
    · rfl
    · exact absurd ((isDimLine_shape l).mp hb) (h l hl)
  have hloc : locateBinaryOffset buf = none := by
    unfold locateBinaryOffset
    rw [firstDim_eq_none _ hdim]
  rw [slk_eq_of_locate_none buf hloc]
  exact ⟨rfl, rfl, rfl, rfl, fun x hx => mem_zeroGrid x hx, fun x hx => mem_zeroGrid x hx⟩

/-- C2, witness: a buffer holding only `hello\nworld` satisfies the
hypothesis and decodes to empty objects and citadels. -/
theorem c2_witness :
    (parseSLK (strBytes "hello\nworld")).objects = []
    ∧ (parseSLK (strBytes "hello\nworld")).citadels = [] := by
  have h := c2_thm (strBytes "hello\nworld") (by decide)
  exact ⟨h.1, h.2.1⟩

/-- C3: the decoders are total functions of their input (they are plain
`def`s in this embedding, so they return a value on every input,
including empty and truncated buffers); the grids of `parseSLK` and
`parseDPH` always have exactly 65536 entries; and every cell whose
source bytes fall outside the buffer is 0. -/
theorem c3_thm (buf dbuf : List Byte) :
    (parseSLK buf).textureIndices.length = 65536
    ∧ (parseSLK buf).heights.length = 65536
    ∧ (parseDPH dbuf).heights.length = 65536
    ∧ (∀ i : Fin 65536, dbuf.length ≤ i.val * 2 + 1 →
        (parseDPH dbuf).heights.getD i.val 0 = 0)
    ∧ (∀ i : Fin 65536, ∀ off, locateBinaryOffset buf = some off →
        buf.length < off + i.val * 6 + 2 →
        (parseSLK buf).textureIndices.getD i.val 0 = 0)
    ∧ (∀ i : Fin 65536, ∀ off, locateBinaryOffset buf = some off →
        buf.length ≤ off + 5 * 65536 + (i.val / 256) * 257 + i.val % 256 →
        (parseSLK buf).heights.getD i.val 0 = 0)
    ∧ (locateBinaryOffset buf = none →
        (parseSLK buf).textureIndices = zeroGrid ∧ (parseSLK buf).heights = zeroGrid) := by
  refine ⟨?_, ?_, dph_length dbuf, ?_, ?_, ?_, ?_⟩
  · rcases hloc : locateBinaryOffset buf with _ | off
    · rw [slk_eq_of_locate_none buf hloc]
      exact zeroGrid_length
    · rw [slk_eq_of_locate_some buf off hloc]
      exact texGridAt_length buf off
  · rcases hloc : locateBinaryOffset buf with _ | off
    · rw [slk_eq_of_locate_none buf hloc]
      exact zeroGrid_length
    · rw [slk_eq_of_locate_some buf off hloc]
      exact heightGridAt_length buf off
  · intro i hi
    rw [dph_getD dbuf i.val i.isLt, if_neg (by omega)]
  · intro i off hloc hb
    rw [slk_eq_of_locate_some buf off hloc]
    show (texGridAt buf off).getD i.val 0 = 0
    rw [texGridAt_getD buf off i.val i.isLt]
    unfold texCellAt
    rw [if_neg (by omega)]
  · intro i off hloc hb
    rw [slk_eq_of_locate_some buf off hloc]
    show (heightGridAt buf off).getD i.val 0 = 0
    rw [heightGridAt_getD buf off i.val i.isLt]
    unfold heightCellAt
    rw [if_neg (by omega)]
  · intro hloc
    rw [slk_eq_of_locate_none buf hloc]
    exact ⟨rfl, rfl⟩

/-- C3, witness: at the empty buffers the grids have length 65536 and
an uncovered cell reads 0. -/
theorem c3_witness :
    (parseSLK ([] : List Byte)).textureIndices.length = 65536
    ∧ (parseDPH ([] : List Byte)).heights.getD 5 0 = 0 := by
  have h := c3_thm ([] : List Byte) ([] : List Byte)
  exact ⟨h.1, h.2.2.2.1 ⟨5, by norm_num⟩ (by simp)⟩

/-- C10: every height cell of `parseSLK` comes from a single byte and is
at most 255 (despite the `Uint16Array` storage), while `parseDPH`
assembles full little-endian 16-bit values: on the two-byte buffer
`00 01` it stores 256. -/
theorem c10_thm (buf : List Byte) :
    (∀ x ∈ (parseSLK buf).heights, x ≤ 255)
    ∧ (parseDPH [(0 : Byte), 1]).heights.getD 0 0 = 256 := by
  constructor
  · intro x hx
    rcases hloc : locateBinaryOffset buf with _ | off
    · rw [slk_eq_of_locate_none buf hloc] at hx
      have := mem_zeroGrid x hx
      omega
    · rw [slk_eq_of_locate_some buf off hloc] at hx
      have hx2 : x ∈ heightGridAt buf off := hx
      rw [heightGridAt, List.mem_ofFn] at hx2
      obtain ⟨i, hi⟩ := hx2
      rw [← hi]
      simp only [heightCellAt, byteAt]
      split
      · have h2 := (buf.getD (off + 5 * 65536 + (i.val / 256) * 257 + i.val % 256) 0).isLt
        omega
      · omega
  · rw [dph_getD [(0 : Byte), 1] 0 (by norm_num)]
    decide

/-- C10, witness: applying the bound at the empty buffer to the height 0. -/
theorem c10_witness :
    (0 : Nat) ∈ (parseSLK ([] : List Byte)).heights ∧ (0 : Nat) ≤ 255 := by
  have hm : (0 : Nat) ∈ (parseSLK ([] : List Byte)).heights := by
    have hloc : locateBinaryOffset ([] : List Byte) = none := by decide
    rw [slk_eq_of_locate_none _ hloc]
    show (0 : Nat) ∈ zeroGrid
    rw [zeroGrid, List.mem_ofFn]
    exact ⟨⟨0, by norm_num⟩, rfl⟩
  exact ⟨hm, (c10_thm ([] : List Byte)).1 0 hm⟩

theorem skipLines_eq_of_spec (text : List Char) (n : Nat) :
    ∀ pos q, specAdvancePastLines text n pos = some q → skipLines text n pos = q := by
  induction n with
  | zero =>
    intro pos q h
    simp [specAdvancePastLines] at h
    simp [skipLines, h]
  | succ m ih =>
    intro pos q h
    rcases hidx : idxFrom text '\n' pos with _ | t
    · rw [specAdvancePastLines, hidx] at h
      exact absurd h (by simp)
    · rw [specAdvancePastLines, hidx] at h
      rw [skipLines, hidx]
      exact ih (t + 1) q h

theorem locate_eq_of (buf : List Byte) (N d p q : Nat)
    (h1 : firstDim (headerLines buf) = some (some (N : Int)))
    (h2 : idxSub (dimStringOf (some (N : Int))) (headerTextOf buf) = some d)
    (h3 : idxFrom (headerTextOf buf) '\n' d = some p)
    (h4 : specAdvancePastLines (headerTextOf buf) N (p + 1) = some q) :
    locateBinaryOffset buf = some q := by
  unfold locateBinaryOffset
  rw [h1]
  simp only []
  rw [h2]
  simp only []
  rw [h3]
  simp only [Int.toNat_ofNat]
  rw [skipLines_eq_of_spec _ _ _ _ h4]

/-- C6: when the dimension-line scan finds `256 256 N`, the dimension
string occurs in the header text at `d` with its line terminator at `p`,
and `N` further complete lines follow, the binary offset computed by
`parseSLK` is exactly the position past that terminator and those `N`
lines — and that single offset is the one `parseSLK` hands to the
texture extraction, the layer-5 height extraction, and the footer-start
computation (`slkAt`). -/
theorem c6_thm (buf : List Byte) (N d p q : Nat)
    (h1 : firstDim (headerLines buf) = some (some (N : Int)))
    (h2 : idxSub (dimStringOf (some (N : Int))) (headerTextOf buf) = some d)
    (h3 : idxFrom (headerTextOf buf) '\n' d = some p)
    (h4 : specAdvancePastLines (headerTextOf buf) N (p + 1) = some q) :
    locateBinaryOffset buf = some q
    ∧ parseSLK buf = slkAt buf q (modelTableOf (headerLines buf)) := by
  have hloc := locate_eq_of buf N d p q h1 h2 h3 h4
  exact ⟨hloc, slk_eq_of_locate_some buf q hloc⟩

/-- C6, witness: on the concrete buffer `256 256 1\nT\nXYZ` the located
offset is 12 (past `256 256 1\n` and the single texture line `T\n`). -/
theorem c6_witness :
    locateBinaryOffset (strBytes "256 256 1\nT\nXYZ") = some 12
    ∧ parseSLK (strBytes "256 256 1\nT\nXYZ")
        = slkAt (strBytes "256 256 1\nT\nXYZ") 12
            (modelTableOf (headerLines (strBytes "256 256 1\nT\nXYZ"))) :=
  c6_thm _ 1 0 9 12 (by decide) (by decide) (by decide) (by decide)

/-! ### C7 support: the all-zero composite buffer -/

theorem isPrefixOf_append (a b t : List Char) (h : a.isPrefixOf b = true) :
    a.isPrefixOf (b ++ t) = true := by
  induction a generalizing b with
  | nil => simp [List.isPrefixOf]
  | cons c a2 ih =>
    cases b with
    | nil => simp [List.isPrefixOf] at h
    | cons d b2 =>
      rw [List.cons_append]
      rw [show ((c :: a2).isPrefixOf (d :: (b2 ++ t))) = (c == d && a2.isPrefixOf (b2 ++ t))
        from rfl]
      rw [show ((c :: a2).isPrefixOf (d :: b2)) = (c == d && a2.isPrefixOf b2) from rfl] at h
      rw [Bool.and_eq_true] at h ⊢
      exact ⟨h.1, ih b2 h.2⟩

theorem idxSub_of_prefix (needle hay : List Char) (h : needle.isPrefixOf hay = true) :
    idxSub needle hay = some 0 := by
  cases hay with
  | nil => simp [idxSub, h]
  | cons c t => simp [idxSub, h]

theorem findIdx?_append_some {p : Char → Bool} {xs ys : List Char} {i : Nat}
    (h : List.findIdx? p xs = some i) :
    List.findIdx? p (xs ++ ys) = some i := by
  rw [List.findIdx?_append, h]
  rfl

theorem idxFrom_append (a t : List Char) (c : Char) (k j : Nat)
    (h : idxFrom a c k = some j) : idxFrom (a ++ t) c k = some j := by
  unfold idxFrom at h ⊢
  rcases hf : List.findIdx? (fun x => x = c) (a.drop k) with _ | i
  · rw [hf] at h
    exact absurd h (by simp)
  · rw [List.drop_append_eq_append_drop, findIdx?_append_some hf]
    rw [hf] at h
    exact h

theorem spec_succ (text : List Char) (n pos t : Nat)
    (h : idxFrom text '\n' pos = some t) :
    specAdvancePastLines text (n + 1) pos = specAdvancePastLines text n (t + 1) := by
  simp only [specAdvancePastLines]
  rw [h]

theorem c7hdr_length : (strBytes "256 256 3\nA\nB\nC\n").length = 16 := by decide

theorem c7_len (m : Nat) :
    (strBytes "256 256 3\nA\nB\nC\n" ++ List.replicate m 0).length = 16 + m := by
  rw [List.length_append, List.length_replicate, c7hdr_length]

theorem c7_header (m : Nat) :
    headerTextOf (strBytes "256 256 3\nA\nB\nC\n" ++ List.replicate m 0)
      = str "256 256 3\nA\nB\nC\n" ++ List.replicate (49984 ⊓ m) (Char.ofNat 0) := by
  unfold headerTextOf bytesToChars
  rw [List.take_append_eq_append_take,
    List.take_of_length_le (by rw [c7hdr_length]; norm_num), c7hdr_length,
    List.take_replicate, List.map_append, List.map_replicate]
  have hmap : List.map byteChar (strBytes "256 256 3\nA\nB\nC\n")
      = str "256 256 3\nA\nB\nC\n" := by decide
  rw [hmap]
  norm_num [byteChar]

theorem c7_lines (k : Nat) :
    splitCh '\n' (str "256 256 3\nA\nB\nC\n" ++ List.replicate k (Char.ofNat 0))
      = [str "256 256 3", str "A", str "B", str "C",
         List.replicate k (Char.ofNat 0)] := by
  have hns : '\n' ∉ List.replicate k (Char.ofNat 0) := by
    intro hmem
    exact absurd (List.mem_replicate.mp hmem).2 (by decide)
  have e : str "256 256 3\nA\nB\nC\n" ++ List.replicate k (Char.ofNat 0)
      = str "256 256 3" ++ '\n' :: (str "A" ++ '\n' :: (str "B" ++ '\n' ::
          (str "C" ++ '\n' :: List.replicate k (Char.ofNat 0)))) := rfl
  rw [e, splitCh_append_line _ _ _ (by decide), splitCh_append_line _ _ _ (by decide),
    splitCh_append_line _ _ _ (by decide), splitCh_append_line _ _ _ (by decide),
    splitCh_no_sep _ _ hns]

theorem c7_headerLines (m : Nat) :
    headerLines (strBytes "256 256 3\nA\nB\nC\n" ++ List.replicate m 0)
      = [str "256 256 3", str "A", str "B", str "C",
         List.replicate (49984 ⊓ m) (Char.ofNat 0)] := by
  unfold headerLines
  rw [c7_header, c7_lines]

theorem c7_locate (m : Nat) :
    locateBinaryOffset (strBytes "256 256 3\nA\nB\nC\n" ++ List.replicate m 0)
      = some 16 := by
  apply locate_eq_of _ 3 0 9 16
  · rw [c7_headerLines]
    simp only [firstDim]
    rw [if_pos (by decide : isDimLine (str "256 256 3") = true)]
    decide
  · rw [c7_header]
    rw [show dimStringOf (some ((3 : Nat) : Int)) = str "256 256 3" by decide]
    exact idxSub_of_prefix _ _ (isPrefixOf_append _ _ _ (by decide))
  · rw [c7_header]
    exact idxFrom_append _ _ _ _ _ (by decide)
  · rw [c7_header]
    have e1 := idxFrom_append (str "256 256 3\nA\nB\nC\n")
      (List.replicate (49984 ⊓ m) (Char.ofNat 0)) '\n' 10 11 (by decide)
    have e2 := idxFrom_append (str "256 256 3\nA\nB\nC\n")
      (List.replicate (49984 ⊓ m) (Char.ofNat 0)) '\n' 12 13 (by decide)
    have e3 := idxFrom_append (str "256 256 3\nA\nB\nC\n")
      (List.replicate (49984 ⊓ m) (Char.ofNat 0)) '\n' 14 15 (by decide)
    calc specAdvancePastLines (str "256 256 3\nA\nB\nC\n"
            ++ List.replicate (49984 ⊓ m) (Char.ofNat 0)) 3 10
        = specAdvancePastLines (str "256 256 3\nA\nB\nC\n"
            ++ List.replicate (49984 ⊓ m) (Char.ofNat 0)) 2 12 := spec_succ _ 2 10 11 e1
      _ = specAdvancePastLines (str "256 256 3\nA\nB\nC\n"
            ++ List.replicate (49984 ⊓ m) (Char.ofNat 0)) 1 14 := spec_succ _ 1 12 13 e2
      _ = specAdvancePastLines (str "256 256 3\nA\nB\nC\n"
            ++ List.replicate (49984 ⊓ m) (Char.ofNat 0)) 0 16 := spec_succ _ 0 14 15 e3
      _ = some 16 := rfl

theorem byteAt_c7 (m j : Nat) (hj : 16 ≤ j) :
    byteAt (strBytes "256 256 3\nA\nB\nC\n" ++ List.replicate m 0) j = 0 := by
  unfold byteAt
  rw [List.getD_append_right _ _ _ _ (by rw [c7hdr_length]; exact hj), c7hdr_length,
    getD_replicate_byte]
  rfl

theorem c7_tex (m : Nat) :
    texGridAt (strBytes "256 256 3\nA\nB\nC\n" ++ List.replicate m 0) 16 = zeroGrid := by
  apply texGridAt_eq_zero
  intro i
  simp only [texCellAt]
  split
  · rw [byteAt_c7 _ _ (by omega), byteAt_c7 _ _ (by omega)]
    decide
  · rfl

theorem c7_height (m : Nat) :
    heightGridAt (strBytes "256 256 3\nA\nB\nC\n" ++ List.replicate m 0) 16 = zeroGrid := by
  apply heightGridAt_eq_zero
  intro i
  simp only [heightCellAt]
  split
  · rw [byteAt_c7 _ _ (by omega)]
  · rfl

theorem jsTrim_replicate_nul (j : Nat) :
    jsTrim (List.replicate j (Char.ofNat 0)) = List.replicate j (Char.ofNat 0) := by
  apply jsTrim_eq_self
  · intro a ha
    rw [List.head?_replicate] at ha
    by_cases hj : j = 0
    · rw [if_pos hj] at ha
      cases ha
    · rw [if_neg hj] at ha
      cases ha
      decide
  · intro a ha
    rw [← List.head?_reverse, List.reverse_replicate, List.head?_replicate] at ha
    by_cases hj : j = 0
    · rw [if_pos hj] at ha
      cases ha
    · rw [if_neg hj] at ha
      cases ha
      decide

theorem parseFooter_nul (table : Int → Option (List Char)) (j : Nat) :
    parseFooter table (List.replicate j (Char.ofNat 0)) = ([], []) := by
  have hns : '\n' ∉ List.replicate j (Char.ofNat 0) := by
    intro hmem
    exact absurd (List.mem_replicate.mp hmem).2 (by decide)
  unfold parseFooter
  rw [splitCh_no_sep _ _ hns]
  simp only [List.foldl_cons, List.foldl_nil]
  have hstep : footStep table {} (List.replicate j (Char.ofNat 0)) = {} := by
    unfold footStep
    rw [jsTrim_replicate_nul]
    cases j with
    | zero => simp
    | succ j2 =>
      rw [List.replicate_succ]
      simp [jsStartsWith, List.isPrefixOf]
  rw [hstep]
  rfl

theorem c7_drop (m : Nat) :
    (strBytes "256 256 3\nA\nB\nC\n" ++ List.replicate m 0).drop
      (16 + 256 * 256 * 6) = List.replicate (m - 393216) (0 : Byte) := by
  rw [List.drop_append_eq_append_drop,
    List.drop_eq_nil_of_le (by rw [c7hdr_length]; norm_num), c7hdr_length,
    List.drop_replicate, List.nil_append]

theorem c7_footer (table : Int → Option (List Char)) (m : Nat) :
    footerAt table (strBytes "256 256 3\nA\nB\nC\n" ++ List.replicate m 0) 16
      = ([], []) := by
  have hmap : bytesToChars (List.replicate (m - 393216) (0 : Byte))
      = List.replicate (m - 393216) (Char.ofNat 0) := by
    unfold bytesToChars
    rw [List.map_replicate]
    rfl
  unfold footerAt
  by_cases hc : 16 + 256 * 256 * 6
      < (strBytes "256 256 3\nA\nB\nC\n" ++ List.replicate m 0).length
  · rw [if_pos hc, c7_drop, hmap, parseFooter_nul]
  · rw [if_neg hc]

/-- C7: a composite buffer whose header is the dimension line `256 256 3`
followed by exactly 3 texture-list lines, and whose remainder is an
all-zero binary block of any size, decodes to all-zero texture and
height grids with zero objects and zero citadels. -/
theorem c7_thm (m : Nat) :
    parseSLK (strBytes "256 256 3\nA\nB\nC\n" ++ List.replicate m 0)
      = ⟨[], [], [], zeroGrid, zeroGrid⟩
    ∧ (∀ x ∈ zeroGrid, x = 0) := by
  refine ⟨?_, fun x hx => mem_zeroGrid x hx⟩
  rw [slk_eq_of_locate_some _ 16 (c7_locate m)]
  simp only [slkAt]
  rw [c7_footer, c7_tex, c7_height]

/-! ### `parseCAM` invariant (C8/C9 support) -/

theorem not_mem_markerList {t : List Char}
    (h1 : t ≠ mObjB) (h2 : t ≠ mObjE) (h3 : t ≠ mSpyB) (h4 : t ≠ mSpyE)
    (h5 : t ≠ mDescB) (h6 : t ≠ mDescE) (h7 : t ≠ mRank) : t ∉ markerList := by
  intro hm
  simp only [markerList, List.mem_cons, List.not_mem_nil, or_false] at hm
  rcases hm with h | h | h | h | h | h | h
  exacts [h1 h, h2 h, h3 h, h4 h, h5 h, h6 h, h7 h]

theorem goodBlock_append (pi : Bool) (s line : List Char)
    (hgb : GoodBlock pi s)
    (hcl : cleanLine line)
    (hpi : pi = true → jsStartsWith (jsTrim line) (str "PI4") = false)
    (hnd : s = [] → isDigits (jsTrim line) = false) :
    GoodBlock pi (s ++ line ++ ['\n']) := by
  obtain ⟨ls, hml, hlp, hhd⟩ := hgb
  refine ⟨ls ++ [line], ?_, ?_, ?_⟩
  · rw [hml, jl_append]
    simp [jl, List.append_assoc]
  · intro l hl
    rcases List.mem_append.mp hl with h | h
    · exact hlp l h
    · rw [List.mem_singleton.mp h]
      exact ⟨hcl, hpi⟩
  · intro h t hht
    cases ls with
    | nil =>
      have hline : h = line := by
        simp only [List.nil_append] at hht
        exact (List.cons.injEq _ _ _ _ |>.mp hht.symm).1
      have hsnil : s = [] := by rw [hml]; rfl
      rw [← hline] at hnd
      exact hnd hsnil
    | cons h0 t0 =>
      have hh0 : h0 = h := by
        rw [List.cons_append] at hht
        exact (List.cons.injEq _ _ _ _ |>.mp hht).1
      rw [← hh0]
      exact hhd h0 t0 rfl

theorem camInv_step (st : CamState) (line : List Char)
    (hnl : '\n' ∉ line) (hcr : '\r' ∉ line) (hfd : replChar ∉ line)
    (hinv : CamInv st) : CamInv (camStep st line) := by
  unfold camStep
  by_cases e1 : jsTrim line = mObjB
  · rw [if_pos e1]; exact hinv
  rw [if_neg e1]
  by_cases e2 : jsTrim line = mObjE
  · rw [if_pos e2]; exact hinv
  rw [if_neg e2]
  by_cases e3 : jsTrim line = mSpyB
  · rw [if_pos e3]; exact hinv
  rw [if_neg e3]
  by_cases e4 : jsTrim line = mSpyE
  · rw [if_pos e4]; exact hinv
  rw [if_neg e4]
  by_cases e5 : jsTrim line = mDescB
  · rw [if_pos e5]; exact hinv
  rw [if_neg e5]
  by_cases e6 : jsTrim line = mDescE
  · rw [if_pos e6]; exact hinv
  rw [if_neg e6]
  by_cases e7 : jsTrim line = mRank
  · rw [if_pos e7]; exact hinv
  rw [if_neg e7]
  have hnm : jsTrim line ∉ markerList := not_mem_markerList e1 e2 e3 e4 e5 e6 e7
  have hclean : cleanLine line := ⟨⟨hnl, hcr, hfd⟩, hnm⟩
  obtain ⟨ho, hs, hdd, hrk⟩ := hinv
  rcases hsec : st.sec with _ | _ | _ | _ | _
  · exact ⟨ho, hs, hdd, hrk⟩
  · by_cases ht : jsTrim line ≠ []
    · rw [if_pos ht]
      refine ⟨ho, hs, hdd, ?_⟩
      refine ⟨⟨?_, ?_, ?_⟩, hnm, jsTrim_idem line, ht⟩
      · exact fun hmem => hnl (mem_jsTrim hmem)
      · exact fun hmem => hcr (mem_jsTrim hmem)
      · exact fun hmem => hfd (mem_jsTrim hmem)
    · rw [if_neg ht]
      exact ⟨ho, hs, hdd, hrk⟩
  · by_cases hd : st.cd.objective = [] ∧ isDigits (jsTrim line) = true
    · rw [if_pos hd]
      exact ⟨ho, hs, hdd, hrk⟩
    · rw [if_neg hd]
      refine ⟨?_, hs, hdd, hrk⟩
      apply goodBlock_append false _ _ ho hclean (by simp)
      intro hnil
      rcases hb : isDigits (jsTrim line) with _ | _
      · rfl
      · exact absurd ⟨hnil, hb⟩ hd
  · by_cases hd : st.cd.spyInfo = [] ∧ isDigits (jsTrim line) = true
    · rw [if_pos hd]
      exact ⟨ho, hs, hdd, hrk⟩
    · rw [if_neg hd]
      by_cases hp : jsStartsWith (jsTrim line) ("PI4".toList) = true
      · rw [if_pos hp]
        exact ⟨ho, hs, hdd, hrk⟩
      · rw [if_neg hp]
        refine ⟨ho, ?_, hdd, hrk⟩
        apply goodBlock_append true _ _ hs hclean (fun _ => by simpa using hp)
        intro hnil
        rcases hb : isDigits (jsTrim line) with _ | _
        · rfl
        · exact absurd ⟨hnil, hb⟩ hd
  · by_cases hd : st.cd.description = [] ∧ isDigits (jsTrim line) = true
    · rw [if_pos hd]
      exact ⟨ho, hs, hdd, hrk⟩
    · rw [if_neg hd]
      refine ⟨ho, hs, ?_, hrk⟩
      apply goodBlock_append false _ _ hdd hclean (by simp)
      intro hnil
      rcases hb : isDigits (jsTrim line) with _ | _
      · rfl
      · exact absurd ⟨hnil, hb⟩ hd

theorem camInv_foldl (lines : List (List Char)) (st : CamState)
    (h : ∀ l ∈ lines, '\n' ∉ l ∧ '\r' ∉ l ∧ replChar ∉ l)
    (hst : CamInv st) : CamInv (lines.foldl camStep st) := by
  induction lines generalizing st with
  | nil => exact hst
  | cons l t ih =>
    rw [List.foldl_cons]
    have hl := h l (List.mem_cons_self l t)
    exact ih (camStep st l) (fun x hx => h x (List.mem_cons_of_mem _ hx))
      (camInv_step st l hl.1 hl.2.1 hl.2.2 hst)

theorem camInv_init : CamInv {} :=
  ⟨⟨[], rfl, by simp, by simp⟩, ⟨[], rfl, by simp, by simp⟩,
   ⟨[], rfl, by simp, by simp⟩, trivial⟩

theorem parseCAM_inv (content : List Char) :
    GoodBlock false (parseCAM content).objective
    ∧ GoodBlock true (parseCAM content).spyInfo
    ∧ GoodBlock false (parseCAM content).description
    ∧ GoodRank (parseCAM content).ranking := by
  unfold parseCAM
  apply camInv_foldl
  · intro l hl
    refine ⟨?_, ?_, ?_⟩
    · exact fun hmem => sep_not_mem_splitCh hl hmem
    · intro hmem
      have h2 := mem_of_mem_splitCh hl hmem
      have h3 := List.mem_filter.mp h2
      simp at h3
    · intro hmem
      have h2 := mem_of_mem_splitCh hl hmem
      have h3 := (List.mem_filter.mp h2).1
      obtain ⟨c, _, hc⟩ := List.mem_map.mp h3
      by_cases hcr : c = replChar
      · rw [if_pos hcr] at hc
        exact absurd hc (by decide)
      · rw [if_neg hcr] at hc
        exact hcr (hc.trans rfl)
  · exact camInv_init

/-- C9: no field of the record returned by `parseCAM` contains a line
that, after trimming, equals one of the seven section markers. -/
theorem c9_thm (content : List Char) :
    (∀ l ∈ splitCh '\n' (parseCAM content).objective, jsTrim l ∉ markerList)
    ∧ (∀ l ∈ splitCh '\n' (parseCAM content).spyInfo, jsTrim l ∉ markerList)
    ∧ (∀ l ∈ splitCh '\n' (parseCAM content).description, jsTrim l ∉ markerList)
    ∧ (∀ r, (parseCAM content).ranking = some r → jsTrim r ∉ markerList) := by
  obtain ⟨hobj, hspy, hdesc, hrank⟩ := parseCAM_inv content
  have hfield : ∀ (pi : Bool) (s : List Char), GoodBlock pi s →
      ∀ l ∈ splitCh '\n' s, jsTrim l ∉ markerList := by
    intro pi s hgb l hl
    obtain ⟨ls, hml, hlp, _⟩ := hgb
    rw [hml, splitCh_jl_closed ls (fun x hx => ((hlp x hx).1).1.1)] at hl
    rcases List.mem_append.mp hl with h | h
    · exact ((hlp l h).1).2
    · rw [List.mem_singleton.mp h]
      decide
  refine ⟨hfield false _ hobj, hfield true _ hspy, hfield false _ hdesc, ?_⟩
  intro r hr
  rw [hr] at hrank
  obtain ⟨_, hnm, hid, _⟩ := hrank
  rw [hid]
  exact hnm

/-- C9, witness: on a concrete briefing the objective's line `hi` does
not trim to a marker. -/
theorem c9_witness : jsTrim (str "hi") ∉ markerList := by
  have h := (c9_thm (str "OBJECTIVE_BEGIN\nhi\nOBJECTIVE_END")).1
  exact h (str "hi") (by decide)

/-! ### C8 support: replaying a decoded section -/

theorem ne_of_not_mem_markers {t : List Char} (h : t ∉ markerList) :
    t ≠ mObjB ∧ t ≠ mObjE ∧ t ≠ mSpyB ∧ t ≠ mSpyE ∧ t ≠ mDescB ∧ t ≠ mDescE ∧ t ≠ mRank := by
  refine ⟨?_, ?_, ?_, ?_, ?_, ?_, ?_⟩ <;>
    exact fun e => h (by rw [e]; simp [markerList])

theorem camStep_obj (st : CamState) (line : List Char)
    (hsec : st.sec = .objSec)
    (hnm : jsTrim line ∉ markerList)
    (hnd : ¬(st.cd.objective = [] ∧ isDigits (jsTrim line) = true)) :
    camStep st line
      = { st with cd := { st.cd with objective := st.cd.objective ++ line ++ ['\n'] } } := by
  obtain ⟨e1, e2, e3, e4, e5, e6, e7⟩ := ne_of_not_mem_markers hnm
  unfold camStep
  rw [if_neg e1, if_neg e2, if_neg e3, if_neg e4, if_neg e5, if_neg e6, if_neg e7, hsec]
  simp only []
  rw [if_neg hnd]

theorem camStep_desc (st : CamState) (line : List Char)
    (hsec : st.sec = .descSec)
    (hnm : jsTrim line ∉ markerList)
    (hnd : ¬(st.cd.description = [] ∧ isDigits (jsTrim line) = true)) :
    camStep st line
      = { st with cd := { st.cd with description := st.cd.description ++ line ++ ['\n'] } } := by
  obtain ⟨e1, e2, e3, e4, e5, e6, e7⟩ := ne_of_not_mem_markers hnm
  unfold camStep
  rw [if_neg e1, if_neg e2, if_neg e3, if_neg e4, if_neg e5, if_neg e6, if_neg e7, hsec]
  simp only []
  rw [if_neg hnd]

theorem camStep_spy (st : CamState) (line : List Char)
    (hsec : st.sec = .spySec)
    (hnm : jsTrim line ∉ markerList)
    (hnd : ¬(st.cd.spyInfo = [] ∧ isDigits (jsTrim line) = true))
    (hnp : ¬(jsStartsWith (jsTrim line) ("PI4".toList) = true)) :
    camStep st line
      = { st with cd := { st.cd with spyInfo := st.cd.spyInfo ++ line ++ ['\n'] } } := by
  obtain ⟨e1, e2, e3, e4, e5, e6, e7⟩ := ne_of_not_mem_markers hnm
  unfold camStep
  rw [if_neg e1, if_neg e2, if_neg e3, if_neg e4, if_neg e5, if_neg e6, if_neg e7, hsec]
  simp only []
  rw [if_neg hnd, if_neg hnp]

theorem camFold_obj (ls : List (List Char)) (st : CamState)
    (hsec : st.sec = .objSec)
    (hls : ∀ l ∈ ls, cleanLine l)
    (hhd : st.cd.objective = [] → ∀ h t, ls = h :: t → isDigits (jsTrim h) = false) :
    (ls.foldl camStep st).cd.objective = st.cd.objective ++ jl ls
    ∧ (ls.foldl camStep st).sec = CamSec.objSec := by
  induction ls generalizing st with
  | nil => simp [jl, hsec]
  | cons l t ih =>
    have hcl := hls l (List.mem_cons_self l t)
    have hnd : ¬(st.cd.objective = [] ∧ isDigits (jsTrim l) = true) := by
      rintro ⟨hnil, hdig⟩
      rw [hhd hnil l t rfl] at hdig
      exact Bool.noConfusion hdig
    rw [List.foldl_cons, camStep_obj st l hsec hcl.2 hnd]
    have ih2 := ih { st with cd := { st.cd with objective := st.cd.objective ++ l ++ ['\n'] } }
      hsec (fun x hx => hls x (List.mem_cons_of_mem _ hx))
      (fun habs => absurd habs (by simp))
    refine ⟨?_, ih2.2⟩
    rw [ih2.1]
    show (st.cd.objective ++ l ++ ['\n']) ++ jl t = st.cd.objective ++ jl (l :: t)
    simp [jl, List.append_assoc]

theorem camFold_desc (ls : List (List Char)) (st : CamState)
    (hsec : st.sec = .descSec)
    (hls : ∀ l ∈ ls, cleanLine l)
    (hhd : st.cd.description = [] → ∀ h t, ls = h :: t → isDigits (jsTrim h) = false) :
    (ls.foldl camStep st).cd.description = st.cd.description ++ jl ls
    ∧ (ls.foldl camStep st).sec = CamSec.descSec := by
  induction ls generalizing st with
  | nil => simp [jl, hsec]
  | cons l t ih =>
    have hcl := hls l (List.mem_cons_self l t)
    have hnd : ¬(st.cd.description = [] ∧ isDigits (jsTrim l) = true) := by
      rintro ⟨hnil, hdig⟩
      rw [hhd hnil l t rfl] at hdig
      exact Bool.noConfusion hdig
    rw [List.foldl_cons, camStep_desc st l hsec hcl.2 hnd]
    have ih2 := ih { st with cd := { st.cd with description := st.cd.description ++ l ++ ['\n'] } }
      hsec (fun x hx => hls x (List.mem_cons_of_mem _ hx))
      (fun habs => absurd habs (by simp))
    refine ⟨?_, ih2.2⟩
    rw [ih2.1]
    show (st.cd.description ++ l ++ ['\n']) ++ jl t = st.cd.description ++ jl (l :: t)
    simp [jl, List.append_assoc]

theorem camFold_spy (ls : List (List Char)) (st : CamState)
    (hsec : st.sec = .spySec)
    (hls : ∀ l ∈ ls, cleanLine l ∧ jsStartsWith (jsTrim l) (str "PI4") = false)
    (hhd : st.cd.spyInfo = [] → ∀ h t, ls = h :: t → isDigits (jsTrim h) = false) :
    (ls.foldl camStep st).cd.spyInfo = st.cd.spyInfo ++ jl ls
    ∧ (ls.foldl camStep st).sec = CamSec.spySec := by
  induction ls generalizing st with
  | nil => simp [jl, hsec]
  | cons l t ih =>
    have hcl := hls l (List.mem_cons_self l t)
    have hnd : ¬(st.cd.spyInfo = [] ∧ isDigits (jsTrim l) = true) := by
      rintro ⟨hnil, hdig⟩
      rw [hhd hnil l t rfl] at hdig
      exact Bool.noConfusion hdig
    have hnp : ¬(jsStartsWith (jsTrim l) ("PI4".toList) = true) := by
      intro hp
      rw [show ("PI4".toList) = str "PI4" from rfl, hcl.2] at hp
      exact Bool.noConfusion hp
    rw [List.foldl_cons, camStep_spy st l hsec hcl.1.2 hnd hnp]
    have ih2 := ih { st with cd := { st.cd with spyInfo := st.cd.spyInfo ++ l ++ ['\n'] } }
      hsec (fun x hx => hls x (List.mem_cons_of_mem _ hx))
      (fun habs => absurd habs (by simp))
    refine ⟨?_, ih2.2⟩
    rw [ih2.1]
    show (st.cd.spyInfo ++ l ++ ['\n']) ++ jl t = st.cd.spyInfo ++ jl (l :: t)
    simp [jl, List.append_assoc]

theorem camCleanInput (ls : List (List Char)) (mB mE : List Char)
    (hB : ∀ c ∈ mB, c ≠ replChar ∧ c ≠ '\r')
    (hE : ∀ c ∈ mE, c ≠ replChar ∧ c ≠ '\r')
    (hls : ∀ l ∈ ls, cleanChars l) :
    ∀ c ∈ (mB ++ '\n' :: (jl ls ++ mE)), c ≠ replChar ∧ c ≠ '\r' := by
  intro c hc
  rcases List.mem_append.mp hc with h | h
  · exact hB c h
  · rcases List.mem_cons.mp h with rfl | h2
    · exact ⟨by decide, by decide⟩
    · rcases List.mem_append.mp h2 with h3 | h4
      · rcases mem_jl h3 with rfl | ⟨l, hl, hcl⟩
        · exact ⟨by decide, by decide⟩
        · have hcc := hls l hl
          exact ⟨fun e => hcc.2.2 (e ▸ hcl), fun e => hcc.2.1 (e ▸ hcl)⟩
      · exact hE c h4

theorem parseCAM_clean_input (input : List Char)
    (hcl : ∀ c ∈ input, c ≠ replChar ∧ c ≠ '\r') :
    parseCAM input = ((splitCh '\n' input).foldl camStep {}).cd := by
  have hmapid : List.map (fun c => if c = replChar then apos else c) input = input := by
    have h : ∀ c ∈ input, (fun c => if c = replChar then apos else c) c = id c :=
      fun c hc => by simp [if_neg (hcl c hc).1]
    rw [List.map_congr_left h, List.map_id]
  have hfil : List.filter (fun c => c ≠ '\r') input = input :=
    List.filter_eq_self.mpr (fun c hc => by simp [(hcl c hc).2])
  simp only [parseCAM]
  rw [hmapid, hfil]

theorem camStep_close (st : CamState) (mE : List Char)
    (he : mE = mObjE ∨ mE = mSpyE ∨ mE = mDescE) :
    camStep st mE = { st with sec := .noSec } := by
  rcases he with rfl | rfl | rfl
  · unfold camStep
    rw [show jsTrim mObjE = mObjE from by decide]
    rw [if_neg (by decide), if_pos rfl]
  · unfold camStep
    rw [show jsTrim mSpyE = mSpyE from by decide]
    rw [if_neg (by decide), if_neg (by decide), if_neg (by decide), if_pos rfl]
  · unfold camStep
    rw [show jsTrim mDescE = mDescE from by decide]
    rw [if_neg (by decide), if_neg (by decide), if_neg (by decide), if_neg (by decide),
      if_neg (by decide), if_pos rfl]

theorem replay_obj (ls : List (List Char))
    (hls : ∀ l ∈ ls, cleanLine l)
    (hhd : ∀ h t, ls = h :: t → isDigits (jsTrim h) = false) :
    (parseCAM (mObjB ++ '\n' :: (jl ls ++ mObjE))).objective = jl ls := by
  rw [parseCAM_clean_input _ (camCleanInput ls mObjB mObjE (by decide) (by decide)
    (fun l hl => (hls l hl).1))]
  rw [splitCh_append_line '\n' mObjB _ (by decide),
    splitCh_jl ls mObjE (fun l hl => ((hls l hl).1).1),
    splitCh_no_sep '\n' mObjE (by decide)]
  rw [List.foldl_cons,
    show camStep ({} : CamState) mObjB = ⟨CamSec.objSec, {}⟩ from by decide,
    List.foldl_append]
  have hf := camFold_obj ls ⟨CamSec.objSec, {}⟩ rfl hls (fun _ => hhd)
  simp only [List.foldl_cons, List.foldl_nil]
  rw [camStep_close _ _ (Or.inl rfl)]
  show (ls.foldl camStep ⟨CamSec.objSec, {}⟩).cd.objective = jl ls
  rw [hf.1]
  rfl

theorem replay_desc (ls : List (List Char))
    (hls : ∀ l ∈ ls, cleanLine l)
    (hhd : ∀ h t, ls = h :: t → isDigits (jsTrim h) = false) :
    (parseCAM (mDescB ++ '\n' :: (jl ls ++ mDescE))).description = jl ls := by
  rw [parseCAM_clean_input _ (camCleanInput ls mDescB mDescE (by decide) (by decide)
    (fun l hl => (hls l hl).1))]
  rw [splitCh_append_line '\n' mDescB _ (by decide),
    splitCh_jl ls mDescE (fun l hl => ((hls l hl).1).1),
    splitCh_no_sep '\n' mDescE (by decide)]
  rw [List.foldl_cons,
    show camStep ({} : CamState) mDescB = ⟨CamSec.descSec, {}⟩ from by decide,
    List.foldl_append]
  have hf := camFold_desc ls ⟨CamSec.descSec, {}⟩ rfl hls (fun _ => hhd)
  simp only [List.foldl_cons, List.foldl_nil]
  rw [camStep_close _ _ (Or.inr (Or.inr rfl))]
  show (ls.foldl camStep ⟨CamSec.descSec, {}⟩).cd.description = jl ls
  rw [hf.1]
  rfl

theorem replay_spy (ls : List (List Char))
    (hls : ∀ l ∈ ls, cleanLine l ∧ jsStartsWith (jsTrim l) (str "PI4") = false)
    (hhd : ∀ h t, ls = h :: t → isDigits (jsTrim h) = false) :
    (parseCAM (mSpyB ++ '\n' :: (jl ls ++ mSpyE))).spyInfo = jl ls := by
  rw [parseCAM_clean_input _ (camCleanInput ls mSpyB mSpyE (by decide) (by decide)
    (fun l hl => ((hls l hl).1).1))]
  rw [splitCh_append_line '\n' mSpyB _ (by decide),
    splitCh_jl ls mSpyE (fun l hl => (((hls l hl).1).1).1),
    splitCh_no_sep '\n' mSpyE (by decide)]
  rw [List.foldl_cons,
    show camStep ({} : CamState) mSpyB = ⟨CamSec.spySec, {}⟩ from by decide,
    List.foldl_append]
  have hf := camFold_spy ls ⟨CamSec.spySec, {}⟩ rfl hls (fun _ => hhd)
  simp only [List.foldl_cons, List.foldl_nil]
  rw [camStep_close _ _ (Or.inr (Or.inl rfl))]
  show (ls.foldl camStep ⟨CamSec.spySec, {}⟩).cd.spyInfo = jl ls
  rw [hf.1]
  rfl

theorem replay_rank (r : List Char) (hr : GoodRank (some r)) :
    (parseCAM (mRank ++ '\n' :: r)).ranking = some r := by
  obtain ⟨⟨hnl, hcr, hfd⟩, hnm, hid, hne⟩ := hr
  have hcl : ∀ c ∈ (mRank ++ '\n' :: r), c ≠ replChar ∧ c ≠ '\r' := by
    intro c hc
    rcases List.mem_append.mp hc with h | h
    · exact (show ∀ x ∈ mRank, x ≠ replChar ∧ x ≠ '\r' by decide) c h
    · rcases List.mem_cons.mp h with rfl | h2
      · exact ⟨by decide, by decide⟩
      · exact ⟨fun e => hfd (e ▸ h2), fun e => hcr (e ▸ h2)⟩
  rw [parseCAM_clean_input _ hcl]
  rw [splitCh_append_line '\n' mRank r (by decide), splitCh_no_sep '\n' r hnl]
  rw [List.foldl_cons,
    show camStep ({} : CamState) mRank = ⟨CamSec.rankSec, {}⟩ from by decide]
  simp only [List.foldl_cons, List.foldl_nil]
  obtain ⟨e1, e2, e3, e4, e5, e6, e7⟩ := ne_of_not_mem_markers hnm
  unfold camStep
  rw [hid]
  rw [if_neg e1, if_neg e2, if_neg e3, if_neg e4, if_neg e5, if_neg e6, if_neg e7]
  simp only []
  rw [if_pos hne]

/-- C8: re-decoding the text content of a single already-decoded section
(wrapped in that section's markers, which the content itself never
contains) yields the same content unchanged, for each of the objective,
spyInfo, description and ranking sections. -/
theorem c8_thm (content : List Char) :
    (parseCAM (mObjB ++ '\n' :: ((parseCAM content).objective ++ mObjE))).objective
        = (parseCAM content).objective
    ∧ (parseCAM (mSpyB ++ '\n' :: ((parseCAM content).spyInfo ++ mSpyE))).spyInfo
        = (parseCAM content).spyInfo
    ∧ (parseCAM (mDescB ++ '\n' :: ((parseCAM content).description ++ mDescE))).description
        = (parseCAM content).description
    ∧ (∀ r, (parseCAM content).ranking = some r →
        (parseCAM (mRank ++ '\n' :: r)).ranking = some r) := by
  obtain ⟨hobj, hspy, hdesc, hrank⟩ := parseCAM_inv content
  refine ⟨?_, ?_, ?_, ?_⟩
  · obtain ⟨ls, hml, hlp, hhd⟩ := hobj
    rw [hml]
    exact replay_obj ls (fun l hl => (hlp l hl).1) hhd
  · obtain ⟨ls, hml, hlp, hhd⟩ := hspy
    rw [hml]
    exact replay_spy ls (fun l hl => ⟨(hlp l hl).1, (hlp l hl).2 rfl⟩) hhd
  · obtain ⟨ls, hml, hlp, hhd⟩ := hdesc
    rw [hml]
    exact replay_desc ls (fun l hl => (hlp l hl).1) hhd
  · intro r hr
    rw [hr] at hrank
    exact replay_rank r hrank

/-- C8, witness: on a concrete briefing, re-decoding the decoded
objective and ranking reproduces them. -/
theorem c8_witness :
    (parseCAM (mObjB ++ '\n'
        :: ((parseCAM (str "CAMPAIGN_RANKING\nGOLD\nOBJECTIVE_BEGIN\nGo\nOBJECTIVE_END")).objective
          ++ mObjE))).objective
      = (parseCAM (str "CAMPAIGN_RANKING\nGOLD\nOBJECTIVE_BEGIN\nGo\nOBJECTIVE_END")).objective
    ∧ (parseCAM (mRank ++ '\n' :: str "GOLD")).ranking = some (str "GOLD") := by
  refine ⟨(c8_thm (str "CAMPAIGN_RANKING\nGOLD\nOBJECTIVE_BEGIN\nGo\nOBJECTIVE_END")).1, ?_⟩
  exact (c8_thm (str "CAMPAIGN_RANKING\nGOLD\nOBJECTIVE_BEGIN\nGo\nOBJECTIVE_END")).2.2.2
    (str "GOLD") (by decide)

/-- C7, witness: at remainder size 0 the decode yields empty objects. -/
theorem c7_witness :
    (parseSLK (strBytes "256 256 3\nA\nB\nC\n" ++ List.replicate 0 0)).objects = [] := by
  rw [(c7_thm 0).1]
